import Mathlib

/-!
Shallow embedding of the Todo store in
`src/yt-react-nextjs-tips-main/src/components/TodoApp.tsx`.

The component keeps an ordered list `todos : Todo[]` in React state, mirrors
it to `localStorage` under the fixed key `"todos"` via `JSON.stringify`, and
reloads it on mount via `JSON.parse`.  The handlers are pure list
transformations; we embed them as Lean functions on `List Todo`, and embed
the persistence layer (`JSON.stringify` / `JSON.parse` on the fragment of
JSON the store reads and writes) as executable Lean functions on `String`.
-/

/-- One todo item: `interface Todo { id: number; text: string; completed: boolean }`.
`id` holds a `Date.now()` timestamp, an integer. -/
structure Todo where
  id : Int
  text : String
  completed : Bool
deriving DecidableEq, Repr

/-- The character class removed by JavaScript `String.prototype.trim`:
ECMAScript WhiteSpace (TAB, VT, FF, SP, NBSP, ZWNBSP and the Unicode
space separators) together with the LineTerminators (LF, CR, LS, PS). -/
def isJsWhitespace (c : Char) : Bool :=
  c.toNat = 0x9 || c.toNat = 0xA || c.toNat = 0xB || c.toNat = 0xC || c.toNat = 0xD ||
  c.toNat = 0x20 || c.toNat = 0xA0 || c.toNat = 0x1680 ||
  (0x2000 ≤ c.toNat && c.toNat ≤ 0x200A) ||
  c.toNat = 0x2028 || c.toNat = 0x2029 || c.toNat = 0x202F || c.toNat = 0x205F ||
  c.toNat = 0x3000 || c.toNat = 0xFEFF

/-- JavaScript `String.prototype.trim`. -/
def jsTrim (s : String) : String :=
  String.mk (((s.toList.dropWhile isJsWhitespace).reverse.dropWhile isJsWhitespace).reverse)

/-- Embeds `addTodo`: when the trimmed input is the empty string the
handler returns early; otherwise it appends a task whose id is the current
`Date.now()` value (the `now` argument), whose text is the untrimmed input,
and whose completed flag is false. -/
def addTodo (now : Int) (input : String) (todos : List Todo) : List Todo :=
  if jsTrim input = "" then todos
  else todos ++ [{ id := now, text := input, completed := false }]

/-- Embeds `toggleComplete`: a map over the list, negating the completed
flag of every todo whose id equals the argument and spreading the rest of
its fields unchanged. -/
def toggleComplete (id : Int) (todos : List Todo) : List Todo :=
  todos.map fun todo =>
    if todo.id = id then { todo with completed := !todo.completed } else todo

/-- Embeds `deleteTodo`: keeps the todos whose id differs from the
argument. -/
def deleteTodo (id : Int) (todos : List Todo) : List Todo :=
  todos.filter fun todo => todo.id != id

/-- Embeds `clearCompleted`: keeps the todos whose completed flag is
false. -/
def clearCompleted (todos : List Todo) : List Todo :=
  todos.filter fun todo => !todo.completed

/-- Embeds `clearAll`: replaces the list with the empty list. -/
def clearAll (_todos : List Todo) : List Todo := []

/-- Embeds `filteredTodos`: the source filter callback returns `!todo.completed`
when the filter equals "pending", `todo.completed` when it equals
"completed", and `true` otherwise. -/
def filteredTodos (filter : String) (todos : List Todo) : List Todo :=
  todos.filter fun todo =>
    if filter = "pending" then !todo.completed
    else if filter = "completed" then todo.completed
    else true

/-- A user intent dispatched into the store.  `add` carries the `Date.now()`
value observed at that call. -/
inductive Op where
  | add (now : Int) (text : String)
  | toggle (id : Int)
  | del (id : Int)
  | clearCompleted
  | clearAll
deriving DecidableEq, Repr

/-- Apply one handler to the current list. -/
def applyOp (todos : List Todo) : Op → List Todo
  | .add now text => addTodo now text todos
  | .toggle id => toggleComplete id todos
  | .del id => deleteTodo id todos
  | .clearCompleted => clearCompleted todos
  | .clearAll => clearAll todos

/-- Run a sequence of user intents from the initial empty list
(`useState<Todo[]>([])`). -/
def run (ops : List Op) : List Todo :=
  ops.foldl applyOp []

/-- The `Date.now()` values of the `add` calls of a trace, in order. -/
def addTimes : List Op → List Int
  | [] => []
  | .add now _ :: ops => now :: addTimes ops
  | _ :: ops => addTimes ops

def intsNonDecreasing : List Int → Bool
  | [] => true
  | [_] => true
  | a :: b :: rest => a ≤ b && intsNonDecreasing (b :: rest)

/-- States that `Date.now()` is non-decreasing across successive calls:
the only constraint the host clock guarantees for a trace of operations. -/
def timesMonotone (ops : List Op) : Prop :=
  intsNonDecreasing (addTimes ops) = true

instance (ops : List Op) : Decidable (timesMonotone ops) :=
  inferInstanceAs (Decidable (intsNonDecreasing (addTimes ops) = true))

/-!
Persistence layer.  `save` is the effect writing `JSON.stringify(todos)`
to storage under the fixed key "todos"; `load` is the mount effect reading
that key and, when the value is truthy, parsing it with `JSON.parse` into
the state.
We embed `JSON.stringify` on `Todo[]` and `JSON.parse` character by
character.  Two deliberate restrictions of the general JSON grammar, neither
reachable from values the store writes: numeric literals are the integral
ones (`Date.now()` ids are integers; fractional/exponent numerals are
rejected instead of producing floats), and `\uXXXX` escapes denoting UTF-16
surrogate code units are rejected (Lean `Char` holds Unicode scalar values;
the printer only emits `\u00XX` for control characters).
-/

/-- Build a `Char` from a code point below the surrogate range. -/
def mkChar (n : Nat) (h : n < 55296) : Char :=
  ⟨⟨⟨n, by omega⟩⟩, Or.inl h⟩

/-- The ASCII digit for `m % 10`. -/
def digitCh (m : Nat) : Char := mkChar (48 + m % 10) (by omega)

/-- The lowercase hex digit for `m % 16`, as `JSON.stringify` emits in
`\u00XX` escapes. -/
def hexCh (m : Nat) : Char :=
  if m % 16 < 10 then mkChar (48 + m % 16) (by omega)
  else mkChar (87 + m % 16) (by omega)

/-- Decimal digits of `n`, most significant first. -/
def natDigits (n : Nat) : List Char :=
  if n < 10 then [digitCh n]
  else natDigits (n / 10) ++ [digitCh (n % 10)]
termination_by n
decreasing_by exact Nat.div_lt_self (by omega) (by omega)

/-- The characters `JSON.stringify` emits for an integral number. -/
def intChars (i : Int) : List Char :=
  if i < 0 then '-' :: natDigits i.natAbs else natDigits i.toNat

/-- The characters `JSON.stringify`'s `QuoteJSONString` emits for one
character of a string value. -/
def escapeChar (c : Char) : List Char :=
  if c = '"' then ['\\', '"']
  else if c = '\\' then ['\\', '\\']
  else if c = '\x08' then ['\\', 'b']
  else if c = '\x0C' then ['\\', 'f']
  else if c = '\n' then ['\\', 'n']
  else if c = '\r' then ['\\', 'r']
  else if c = '\t' then ['\\', 't']
  else if c.toNat < 32 then ['\\', 'u', '0', '0', hexCh (c.toNat / 16), hexCh (c.toNat % 16)]
  else [c]

def escapeChars : List Char → List Char
  | [] => []
  | c :: cs => escapeChar c ++ escapeChars cs

/-- A double-quoted JSON string literal for `s`. -/
def quoteString (s : String) : List Char :=
  '"' :: (escapeChars s.toList ++ ['"'])

def renderBool : Bool → List Char
  | true => ['t', 'r', 'u', 'e']
  | false => ['f', 'a', 'l', 's', 'e']

/-- Renders `JSON.stringify` of one todo: the object literal keys appear
in the insertion order of the source (`id`, `text`, `completed`), with no
spacing. -/
def renderTodo (t : Todo) : List Char :=
  '{' :: (quoteString "id" ++ ':' :: intChars t.id ++
          ',' :: quoteString "text" ++ ':' :: quoteString t.text ++
          ',' :: quoteString "completed" ++ ':' :: renderBool t.completed ++ ['}'])

/-- Comma-separated concatenation of already rendered array elements. -/
def renderElemsSep : List (List Char) → List Char
  | [] => []
  | [x] => x
  | x :: xs => x ++ ',' :: renderElemsSep xs

/-- Embeds `JSON.stringify(todos)`. -/
def stringifyTodos (todos : List Todo) : String :=
  String.mk ('[' :: (renderElemsSep (todos.map renderTodo) ++ [']']))

/-- The storage content the save effect leaves under the fixed key
"todos": `JSON.stringify` of the current list. -/
def save (todos : List Todo) : Option String :=
  some (stringifyTodos todos)

/-- JSON values, with numerals restricted to integers (see the section
comment). -/
inductive Json where
  | null
  | bool (b : Bool)
  | num (n : Int)
  | str (s : String)
  | arr (elems : List Json)
  | obj (fields : List (String × Json))
deriving Repr

/-- The JSON value `JSON.parse` recovers from `renderTodo t`. -/
def encodeTodo (t : Todo) : Json :=
  .obj [("id", .num t.id), ("text", .str t.text), ("completed", .bool t.completed)]

/-- The source performs no validation: `setTodos(JSON.parse(storedTodos))`
casts the parsed value to `Todo[]`.  `decodeTodo` models that `Todo` type
ascription on one parsed record. -/
def decodeTodo : Json → Option Todo
  | .obj [("id", .num i), ("text", .str t), ("completed", .bool b)] =>
      some { id := i, text := t, completed := b }
  | _ => none

def decodeTodoList : List Json → Option (List Todo)
  | [] => some []
  | j :: js =>
      match decodeTodo j, decodeTodoList js with
      | some t, some ts => some (t :: ts)
      | _, _ => none

/-- The `Todo[]` type ascription on the whole parsed value. -/
def decodeTodos : Json → Option (List Todo)
  | .arr es => decodeTodoList es
  | _ => none

/-- JSON insignificant whitespace: tab, line feed, carriage return, space. -/
def isJsonWs (c : Char) : Bool :=
  c = ' ' || c = '\t' || c = '\n' || c = '\r'

def skipWs : List Char → List Char
  | [] => []
  | c :: cs => if isJsonWs c then skipWs cs else c :: cs

/-- ASCII decimal digit, the only digits of the JSON number grammar. -/
def isDigitCh (c : Char) : Bool :=
  48 ≤ c.toNat && c.toNat ≤ 57

def parseHexDigit (c : Char) : Option Nat :=
  if 48 ≤ c.toNat ∧ c.toNat ≤ 57 then some (c.toNat - 48)
  else if 97 ≤ c.toNat ∧ c.toNat ≤ 102 then some (c.toNat - 87)
  else if 65 ≤ c.toNat ∧ c.toNat ≤ 70 then some (c.toNat - 55)
  else none

/-- The character denoted by a single-character escape sequence. -/
def unescapeChar (e : Char) : Option Char :=
  if e = '"' then some '"'
  else if e = '\\' then some '\\'
  else if e = '/' then some '/'
  else if e = 'b' then some '\x08'
  else if e = 'f' then some '\x0C'
  else if e = 'n' then some '\n'
  else if e = 'r' then some '\r'
  else if e = 't' then some '\t'
  else none

/-- Scan the body of a JSON string literal (the opening quote already
consumed): returns the denoted characters and the input after the closing
quote.  Faithful to `JSON.parse` except that `\uXXXX` escapes in the UTF-16
surrogate range are rejected rather than combined (see the section comment). -/
def parseStrChars : List Char → Except String (List Char × List Char)
  | [] => .error "unterminated string"
  | c :: rest =>
    if c = '"' then .ok ([], rest)
    else if c = '\\' then
      match rest with
      | [] => .error "unterminated escape"
      | 'u' :: h1 :: h2 :: h3 :: h4 :: rest2 =>
        match parseHexDigit h1, parseHexDigit h2, parseHexDigit h3, parseHexDigit h4 with
        | some a, some b, some c2, some d =>
          let n := ((a * 16 + b) * 16 + c2) * 16 + d
          if hn : n < 55296 then
            (parseStrChars rest2).map fun sr => (mkChar n hn :: sr.1, sr.2)
          else .error "surrogate escapes are not modelled"
        | _, _, _, _ => .error "invalid unicode escape"
      | e :: rest2 =>
        match unescapeChar e with
        | some ec => (parseStrChars rest2).map fun sr => (ec :: sr.1, sr.2)
        | none => .error "invalid escape"
    else if c.toNat < 32 then .error "control character in string"
    else (parseStrChars rest).map fun sr => (c :: sr.1, sr.2)
termination_by cs => cs.length
decreasing_by all_goals simp +arith [List.length]

/-- Longest digit prefix and the remaining input. -/
def consumeDigits : List Char → List Char × List Char
  | [] => ([], [])
  | c :: cs =>
    if isDigitCh c then
      let (ds, r) := consumeDigits cs
      (c :: ds, r)
    else ([], c :: cs)

def digitsValAux (acc : Nat) : List Char → Nat
  | [] => acc
  | c :: cs => digitsValAux (10 * acc + (c.toNat - 48)) cs

/-- The value of a digit string, most significant digit first. -/
def digitsVal (ds : List Char) : Nat := digitsValAux 0 ds

/-- An unsigned JSON integer numeral: nonempty digits, no redundant leading
zero, and no fractional part or exponent (rejected, see section comment). -/
def parseUNum (input : List Char) : Except String (Nat × List Char) :=
  match consumeDigits input with
  | ([], _) => .error "expected digits"
  | (d :: ds, rest) =>
    if d = '0' ∧ ds ≠ [] then .error "leading zero"
    else
      match rest with
      | '.' :: _ => .error "fractional numerals are not modelled"
      | 'e' :: _ => .error "exponent numerals are not modelled"
      | 'E' :: _ => .error "exponent numerals are not modelled"
      | _ => .ok (digitsVal (d :: ds), rest)

/-- A JSON integer numeral with optional leading minus. -/
def parseNum : List Char → Except String (Int × List Char)
  | '-' :: rest => (parseUNum rest).map fun nr => (-(nr.1 : Int), nr.2)
  | input => (parseUNum input).map fun nr => ((nr.1 : Int), nr.2)

/-- Consume the given literal characters or fail. -/
def expectLit : List Char → List Char → Json → Except String (Json × List Char)
  | [], input, v => .ok (v, input)
  | _ :: _, [], _ => .error "unexpected end of input"
  | p :: ps, c :: cs, v =>
    if c = p then expectLit ps cs v else .error "invalid literal"

mutual

/-- Parse one JSON value.  `fuel` only bounds recursion depth; every
recursive call consumes it, and the top-level entry point supplies enough
for any input of its length. -/
def parseVal : Nat → List Char → Except String (Json × List Char)
  | 0, _ => .error "input too deeply nested"
  | fuel + 1, input =>
    match skipWs input with
    | [] => .error "unexpected end of input"
    | c :: rest =>
      if c = 'n' then expectLit ['u', 'l', 'l'] rest .null
      else if c = 't' then expectLit ['r', 'u', 'e'] rest (.bool true)
      else if c = 'f' then expectLit ['a', 'l', 's', 'e'] rest (.bool false)
      else if c = '"' then (parseStrChars rest).map fun sr => (.str (String.mk sr.1), sr.2)
      else if c = '[' then
        match skipWs rest with
        | ']' :: r => .ok (.arr [], r)
        | rest2 => (parseElems fuel rest2).map fun er => (.arr er.1, er.2)
      else if c = '{' then
        match skipWs rest with
        | '}' :: r => .ok (.obj [], r)
        | rest2 => (parseMembers fuel rest2).map fun mr => (.obj mr.1, mr.2)
      else if c = '-' || isDigitCh c then
        (parseNum (c :: rest)).map fun nr => (.num nr.1, nr.2)
      else .error "unexpected character"

/-- Parse the elements of a nonempty JSON array, up to and including the
closing bracket. -/
def parseElems : Nat → List Char → Except String (List Json × List Char)
  | 0, _ => .error "input too deeply nested"
  | fuel + 1, input =>
    match parseVal fuel input with
    | .error e => .error e
    | .ok (v, r) =>
      match skipWs r with
      | ',' :: r2 => (parseElems fuel r2).map fun er => (v :: er.1, er.2)
      | ']' :: r2 => .ok ([v], r2)
      | _ => .error "expected comma or closing bracket"

/-- Parse the members of a nonempty JSON object, up to and including the
closing brace. -/
def parseMembers : Nat → List Char → Except String (List (String × Json) × List Char)
  | 0, _ => .error "input too deeply nested"
  | fuel + 1, input =>
    match skipWs input with
    | '"' :: rest =>
      match parseStrChars rest with
      | .error e => .error e
      | .ok (k, r1) =>
        match skipWs r1 with
        | ':' :: r2 =>
          match parseVal fuel r2 with
          | .error e => .error e
          | .ok (v, r3) =>
            match skipWs r3 with
            | ',' :: r4 => (parseMembers fuel r4).map fun mr => ((String.mk k, v) :: mr.1, mr.2)
            | '}' :: r4 => .ok ([(String.mk k, v)], r4)
            | _ => .error "expected comma or closing brace"
        | _ => .error "expected colon"
    | _ => .error "expected object key"

end

/-- Embeds `JSON.parse`: one value and nothing but trailing whitespace.  The fuel
`2 * s.length + 4` is enough for any input: at most two recursive calls
happen per consumed character. -/
def jsonParse (s : String) : Except String Json :=
  match parseVal (2 * s.length + 4) s.toList with
  | .error e => .error e
  | .ok (v, rest) =>
    match skipWs rest with
    | [] => .ok v
    | _ => .error "unexpected trailing characters"

/-- The mount effect: read the fixed key "todos" into `storedTodos` and,
when that value is truthy, `setTodos(JSON.parse(storedTodos))`.
`stored` is what `getItem` returns (`none` = null).  A null or empty-string
value is falsy, so the state keeps its initial `[]`.  A `JSON.parse`
failure is an uncaught exception (modelled as `.error`); the source has no
try/catch and no shape validation — `decodeTodos` stands for the unchecked
`Todo[]` ascription on the parsed value. -/
def load (stored : Option String) : Except String (List Todo) :=
  match stored with
  | none => .ok []
  | some s =>
    if s = "" then .ok []
    else
      match jsonParse s with
      | .error e => .error e
      | .ok j =>
        match decodeTodos j with
        | some ts => .ok ts
        | none => .error "parsed value is not a Todo array"

/-- React state visible to the persistence effects: the todo list plus the
storage cell under the fixed key "todos".  The save effect
(`useEffect(..., [todos])`) reruns exactly when `setTodos` produced a new
list, so a handler that returns early leaves both components untouched. -/
structure Store where
  todos : List Todo
  storage : Option String
deriving DecidableEq, Repr

/-- Embeds `addTodo` as the user observes it: the early return on blank input skips
`setTodos`, hence also the save effect; otherwise the appended list is
written back to storage. -/
def addOp (now : Int) (input : String) (s : Store) : Store :=
  if jsTrim input = "" then s
  else
    let ts := s.todos ++ [{ id := now, text := input, completed := false }]
    { todos := ts, storage := save ts }

/-- The `Date.now()` value of an operation does not collide with an id
already in the list (vacuous for the non-`add` operations). -/
def FreshTime : Op → List Todo → Prop
  | .add now _, l => ∀ t ∈ l, t.id ≠ now
  | _, _ => True

instance (op : Op) (l : List Todo) : Decidable (FreshTime op l) :=
  match op with
  | .add now _ => inferInstanceAs (Decidable (∀ t ∈ l, t.id ≠ now))
  | .toggle _ => inferInstanceAs (Decidable True)
  | .del _ => inferInstanceAs (Decidable True)
  | .clearCompleted => inferInstanceAs (Decidable True)
  | .clearAll => inferInstanceAs (Decidable True)

/-! Helper lemmas shared by the claim theorems. -/

theorem map_mem_eq_self {α : Type} {f : α → α} {l : List α} (h : ∀ x ∈ l, f x = x) :
    l.map f = l := by
  induction l with
  | nil => rfl
  | cons x xs ih => simp only [List.map_cons, h x (by simp), ih fun y hy => h y (by simp [hy])]

/-- In a list with pairwise distinct ids, the id of the distinguished element
of a decomposition occurs in neither side. -/
theorem ids_split (l1 l2 : List Todo) (t : Todo)
    (h : ((l1 ++ t :: l2).map Todo.id).Nodup) :
    (∀ u ∈ l1, u.id ≠ t.id) ∧ (∀ u ∈ l2, u.id ≠ t.id) := by
  rw [List.map_append, List.map_cons, List.nodup_append] at h
  obtain ⟨h1, h2, hdisj⟩ := h
  constructor
  · intro u hu he
    exact hdisj (List.mem_map_of_mem Todo.id hu) (by simp [he])
  · intro u hu he
    rcases h2 with _ | ⟨hnotmem, _⟩
    exact hnotmem u.id (List.mem_map_of_mem Todo.id hu) he.symm

theorem toggle_ids (l : List Todo) (i : Int) :
    (toggleComplete i l).map Todo.id = l.map Todo.id := by
  simp only [toggleComplete, List.map_map]
  apply List.map_congr_left
  intro t _
  by_cases h : t.id = i <;> simp [Function.comp, h]

/-- C1: on the stored value `"not valid json"`, `JSON.parse` raises (the
literal `n...` fails to parse), so `load` propagates an error instead of
falling back to an empty list — the code contradicts the no-crash policy
of the claim.  The list the component holds stays `[]` only because `setTodos` is
never reached. -/
theorem load_malformed_fails : load (some "not valid json") = .error "invalid literal" := rfl

/-- C2 counterexample: the host clock only guarantees non-decreasing
`Date.now()`, so two adds in the same millisecond are a legal trace, and
the resulting reachable state has a duplicated id. -/
theorem duplicate_ids_reachable :
    ∃ ops : List Op, timesMonotone ops ∧ ¬ ((run ops).map Todo.id).Nodup :=
  ⟨[.add 5 "a", .add 5 "b"], by decide, by decide⟩

/-- C2 (amended): every operation preserves pairwise-distinct ids provided
the `Date.now()` value of an `add` does not collide with an id already in
the list; without that proviso the property fails
(see the counterexample). -/
theorem ids_nodup_preserved (l : List Todo) (op : Op)
    (h : (l.map Todo.id).Nodup) (hf : FreshTime op l) :
    ((applyOp l op).map Todo.id).Nodup := by
  cases op with
  | add now text =>
    simp only [applyOp, addTodo]
    split
    · exact h
    · rw [List.map_append, List.nodup_append]
      refine ⟨h, by simp, fun a ha hb => ?_⟩
      simp only [List.map_cons, List.map_nil, List.mem_cons, List.not_mem_nil, or_false] at hb
      obtain ⟨u, hu, rfl⟩ := List.mem_map.mp ha
      exact hf u hu hb
  | toggle id =>
    simp only [applyOp]
    rw [toggle_ids]
    exact h
  | del id =>
    simp only [applyOp, deleteTodo]
    exact h.sublist ((List.filter_sublist l).map Todo.id)
  | clearCompleted =>
    simp only [applyOp, clearCompleted]
    exact h.sublist ((List.filter_sublist l).map Todo.id)
  | clearAll =>
    simp [applyOp, clearAll]

/-- C2 witness: the amended preservation theorem at a concrete state and
operation. -/
theorem ids_nodup_preserved_witness :
    (([⟨1, "a", false⟩] : List Todo).map Todo.id).Nodup ∧
    FreshTime (Op.add 5 "b") [⟨1, "a", false⟩] ∧
    ((applyOp [⟨1, "a", false⟩] (Op.add 5 "b")).map Todo.id).Nodup :=
  ⟨by decide, by decide, ids_nodup_preserved _ _ (by decide) (by decide)⟩

/-- C4: blank (whitespace-only) input leaves state and storage untouched —
the early return skips `setTodos`, so the save effect never fires; any other
input appends exactly one task with the fresh `Date.now()` id and
`completed = false`, existing tasks unchanged, and persists the new list. -/
theorem addOp_spec (s : Store) (now : Int) (input : String) :
    (jsTrim input = "" → addOp now input s = s) ∧
    (jsTrim input ≠ "" →
      addOp now input s =
        { todos := s.todos ++ [{ id := now, text := input, completed := false }],
          storage := save (s.todos ++ [{ id := now, text := input, completed := false }]) }) := by
  constructor <;> intro h <;> simp [addOp, h]

/-- C4 witness: the add specification at a blank and at a non-blank input. -/
theorem addOp_spec_witness :
    (jsTrim " \t" = "" ∧ addOp 5 " \t" ⟨[], none⟩ = ⟨[], none⟩) ∧
    (jsTrim "x" ≠ "" ∧
      addOp 5 "x" ⟨[], none⟩ = ⟨[⟨5, "x", false⟩], save [⟨5, "x", false⟩]⟩) :=
  ⟨⟨by decide, (addOp_spec ⟨[], none⟩ 5 " \t").1 (by decide)⟩,
   ⟨by decide, (addOp_spec ⟨[], none⟩ 5 "x").2 (by decide)⟩⟩

/-- C5: under distinct ids, `toggleComplete` keeps the length, is the
identity when no id matches, and when the list splits around the matching
task it flips exactly the `completed` flag of that task, preserving its
other fields and both surrounding segments. -/
theorem toggleComplete_spec (l : List Todo) (id : Int) (h : (l.map Todo.id).Nodup) :
    (toggleComplete id l).length = l.length ∧
    ((∀ t ∈ l, t.id ≠ id) → toggleComplete id l = l) ∧
    (∀ l1 t l2, l = l1 ++ t :: l2 → t.id = id →
      toggleComplete id l = l1 ++ { t with completed := !t.completed } :: l2) := by
  refine ⟨by simp [toggleComplete], ?_, ?_⟩
  · intro hno
    exact map_mem_eq_self fun t ht => if_neg (hno t ht)
  · rintro l1 t l2 rfl rfl
    obtain ⟨h1, h2⟩ := ids_split l1 l2 t h
    simp only [toggleComplete, List.map_append, List.map_cons, if_pos rfl]
    rw [map_mem_eq_self fun u hu => if_neg (h1 u hu),
        map_mem_eq_self fun u hu => if_neg (h2 u hu)]
    simp

/-- C5 witness: the toggle specification at a concrete two-element list. -/
theorem toggleComplete_spec_witness :
    (([⟨1, "a", false⟩, ⟨2, "b", true⟩] : List Todo).map Todo.id).Nodup ∧
    toggleComplete 2 [⟨1, "a", false⟩, ⟨2, "b", true⟩] = [⟨1, "a", false⟩, ⟨2, "b", false⟩] :=
  ⟨by decide,
   (toggleComplete_spec [⟨1, "a", false⟩, ⟨2, "b", true⟩] 2 (by decide)).2.2
     [⟨1, "a", false⟩] ⟨2, "b", true⟩ [] rfl rfl⟩

/-- C6: toggling the same id twice restores the original list. -/
theorem toggleComplete_involution (l : List Todo) (id : Int) (h : id ∈ l.map Todo.id) :
    toggleComplete id (toggleComplete id l) = l := by
  simp only [toggleComplete, List.map_map]
  apply map_mem_eq_self
  intro t _
  cases t with
  | mk tid ttext tcomp =>
    by_cases hc : tid = id
    · subst hc; simp [Bool.not_not]
    · simp [Function.comp, hc]

/-- C6 witness: the involution at a concrete list and present id. -/
theorem toggleComplete_involution_witness :
    (2 : Int) ∈ ([⟨1, "a", false⟩, ⟨2, "b", true⟩] : List Todo).map Todo.id ∧
    toggleComplete 2 (toggleComplete 2 [⟨1, "a", false⟩, ⟨2, "b", true⟩]) =
      [⟨1, "a", false⟩, ⟨2, "b", true⟩] :=
  ⟨by decide, toggleComplete_involution _ 2 (by decide)⟩

/-- C7: under distinct ids, `deleteTodo` is the identity when no id matches,
and when the list splits around the matching task it removes exactly that
task, preserving both surrounding segments in order. -/
theorem deleteTodo_spec (l : List Todo) (id : Int) (h : (l.map Todo.id).Nodup) :
    ((∀ t ∈ l, t.id ≠ id) → deleteTodo id l = l) ∧
    (∀ l1 t l2, l = l1 ++ t :: l2 → t.id = id → deleteTodo id l = l1 ++ l2) := by
  constructor
  · intro hno
    rw [deleteTodo, List.filter_eq_self]
    intro t ht
    simpa using hno t ht
  · rintro l1 t l2 rfl rfl
    obtain ⟨h1, h2⟩ := ids_split l1 l2 t h
    simp only [deleteTodo, List.filter_append, List.filter_cons, bne_self_eq_false,
      Bool.false_eq_true, if_false]
    rw [List.filter_eq_self.mpr fun u hu => by simpa using h1 u hu,
        List.filter_eq_self.mpr fun u hu => by simpa using h2 u hu]

/-- C7 witness: the delete specification at a concrete two-element list. -/
theorem deleteTodo_spec_witness :
    (([⟨1, "a", false⟩, ⟨2, "b", true⟩] : List Todo).map Todo.id).Nodup ∧
    deleteTodo 1 [⟨1, "a", false⟩, ⟨2, "b", true⟩] = [⟨2, "b", true⟩] :=
  ⟨by decide,
   (deleteTodo_spec [⟨1, "a", false⟩, ⟨2, "b", true⟩] 1 (by decide)).2
     [] ⟨1, "a", false⟩ [⟨2, "b", true⟩] rfl rfl⟩

/-- C8: `clearCompleted` yields a subsequence (original order) of the list
whose members are exactly the tasks that were not completed, with
multiplicity. -/
theorem clearCompleted_spec (l : List Todo) :
    List.Sublist (clearCompleted l) l ∧
    (∀ t ∈ clearCompleted l, t.completed = false) ∧
    (∀ t : Todo, t.completed = false → (clearCompleted l).count t = l.count t) ∧
    (∀ t : Todo, t.completed = true → (clearCompleted l).count t = 0) := by
  refine ⟨List.filter_sublist l, ?_, ?_, ?_⟩
  · intro t ht
    simpa using (List.mem_filter.mp ht).2
  · intro t ht
    exact List.count_filter (by simp [ht])
  · intro t ht
    simp [clearCompleted, List.count_eq_zero, List.mem_filter, ht]

/-- C8 witness: the clear-completed specification at a concrete list. -/
theorem clearCompleted_spec_witness :
    clearCompleted [⟨1, "a", true⟩, ⟨2, "b", false⟩] = [⟨2, "b", false⟩] ∧
    (⟨2, "b", false⟩ : Todo).completed = false ∧
    (clearCompleted [⟨1, "a", true⟩, ⟨2, "b", false⟩]).count ⟨2, "b", false⟩ =
      ([⟨1, "a", true⟩, ⟨2, "b", false⟩] : List Todo).count ⟨2, "b", false⟩ ∧
    (clearCompleted [⟨1, "a", true⟩, ⟨2, "b", false⟩]).count ⟨1, "a", true⟩ = 0 :=
  ⟨by decide, by decide,
   (clearCompleted_spec [⟨1, "a", true⟩, ⟨2, "b", false⟩]).2.2.1 ⟨2, "b", false⟩ (by decide),
   (clearCompleted_spec [⟨1, "a", true⟩, ⟨2, "b", false⟩]).2.2.2 ⟨1, "a", true⟩ (by decide)⟩

/-- C9: the `all` projection is the whole list; `pending` and `completed`
are order-preserving subsequences containing a present task exactly when its
`completed` flag is `false` resp. `true`; the projection never mutates the
list (it is a pure function of it). -/
theorem filteredTodos_spec (l : List Todo) :
    filteredTodos "all" l = l ∧
    List.Sublist (filteredTodos "pending" l) l ∧
    List.Sublist (filteredTodos "completed" l) l ∧
    (∀ t ∈ l, (t ∈ filteredTodos "pending" l ↔ t.completed = false)) ∧
    (∀ t ∈ l, (t ∈ filteredTodos "completed" l ↔ t.completed = true)) := by
  refine ⟨?_, List.filter_sublist l, List.filter_sublist l, ?_, ?_⟩
  · simp [filteredTodos]
  · intro t ht
    simp [filteredTodos, List.mem_filter, ht]
  · intro t ht
    simp [filteredTodos, List.mem_filter, ht]

/-- C9 witness: the projection specification at a concrete list and task. -/
theorem filteredTodos_spec_witness :
    filteredTodos "all" [⟨1, "a", true⟩] = [⟨1, "a", true⟩] ∧
    (⟨1, "a", true⟩ : Todo) ∈ [(⟨1, "a", true⟩ : Todo)] ∧
    ((⟨1, "a", true⟩ : Todo) ∈ filteredTodos "completed" [⟨1, "a", true⟩] ↔
      (⟨1, "a", true⟩ : Todo).completed = true) :=
  ⟨(filteredTodos_spec [⟨1, "a", true⟩]).1, by decide,
   (filteredTodos_spec [⟨1, "a", true⟩]).2.2.2.2 ⟨1, "a", true⟩ (by decide)⟩

/-- C10: any filter string other than `"pending"` and `"completed"` (not
only `"all"`) falls through both checks to `return true`, so the projection
is the whole list. -/
theorem filteredTodos_other_filters (f : String) (l : List Todo)
    (h1 : f ≠ "pending") (h2 : f ≠ "completed") : filteredTodos f l = l := by
  simp [filteredTodos, h1, h2]

/-- C10 witness: the fall-through projection at a filter string outside the
enumerated set. -/
theorem filteredTodos_other_filters_witness :
    ("bogus" : String) ≠ "pending" ∧ ("bogus" : String) ≠ "completed" ∧
    filteredTodos "bogus" [⟨1, "a", true⟩, ⟨2, "b", false⟩] = [⟨1, "a", true⟩, ⟨2, "b", false⟩] :=
  ⟨by decide, by decide, filteredTodos_other_filters "bogus" _ (by decide) (by decide)⟩


/-!
Round-trip correctness of the persistence layer (claim C3), built up from:
character-level facts, the decimal-numeral round trip, the string-escape
round trip, one lemma per scalar JSON form, one lemma per object member,
and finally the rendered todo array.  Parser lemmas quantify over all
sufficiently large fuel in the `f + k` form the top-level entry point can
instantiate.
-/

theorem ne_of_toNat_ne {c d : Char} (h : c.toNat ≠ d.toNat) : c ≠ d :=
  fun he => h (he ▸ rfl)

theorem toNat_inj {c d : Char} (h : c.toNat = d.toNat) : c = d :=
  Char.ext (UInt32.toNat.inj h)

theorem mkChar_toNat (n : Nat) (h : n < 55296) : (mkChar n h).toNat = n := rfl

theorem digitCh_toNat (m : Nat) : (digitCh m).toNat = 48 + m % 10 := rfl

theorem isDigitCh_digitCh (m : Nat) : isDigitCh (digitCh m) = true := by
  simp only [isDigitCh, digitCh_toNat]
  simp
  omega

theorem digitCh_eq_digit {m k : Nat} (hm : m < 10) (hk : k < 10) :
    digitCh m = digitCh k ↔ m = k := by
  constructor
  · intro h
    have := congrArg Char.toNat h
    rw [digitCh_toNat, digitCh_toNat] at this
    omega
  · intro h; rw [h]

theorem natDigits_ne_nil (n : Nat) : natDigits n ≠ [] := by
  rw [natDigits]
  split <;> simp

theorem natDigits_all_digits (n : Nat) : ∀ c ∈ natDigits n, isDigitCh c = true := by
  induction n using Nat.strong_induction_on with
  | _ n ih =>
    rw [natDigits]
    split
    · intro c hc
      simp only [List.mem_singleton] at hc
      subst hc
      exact isDigitCh_digitCh n
    · intro c hc
      rcases List.mem_append.mp hc with h | h
      · exact ih (n / 10) (Nat.div_lt_self (by omega) (by omega)) c h
      · simp only [List.mem_singleton] at h
        subst h
        exact isDigitCh_digitCh (n % 10)

theorem natDigits_head_ne_zero (n : Nat) (hn : 1 ≤ n) :
    ∀ d ds, natDigits n = d :: ds → d ≠ '0' := by
  induction n using Nat.strong_induction_on with
  | _ n ih =>
    intro d ds heq
    rw [natDigits] at heq
    split at heq
    · simp only [List.cons.injEq] at heq
      intro hd
      have := congrArg Char.toNat (heq.1 ▸ hd)
      rw [digitCh_toNat] at this
      have h0 : ('0').toNat = 48 := rfl
      omega
    · rcases hnds : natDigits (n / 10) with _ | ⟨e, es⟩
      · exact absurd hnds (natDigits_ne_nil (n / 10))
      · rw [hnds] at heq
        simp only [List.cons_append, List.cons.injEq] at heq
        have hdiv : 1 ≤ n / 10 := by
          rename_i hge
          exact Nat.one_le_div_iff (by omega) |>.mpr (by omega)
        exact heq.1 ▸ ih (n / 10) (Nat.div_lt_self (by omega) (by omega)) hdiv e es hnds

theorem digitsValAux_append (acc : Nat) (xs ys : List Char) :
    digitsValAux acc (xs ++ ys) = digitsValAux (digitsValAux acc xs) ys := by
  induction xs generalizing acc with
  | nil => rfl
  | cons x xs ih =>
    rw [List.cons_append]
    rw [show digitsValAux acc (x :: (xs ++ ys))
          = digitsValAux (10 * acc + (x.toNat - 48)) (xs ++ ys) from rfl]
    rw [ih]
    rfl

theorem digitsValAux_natDigits (n : Nat) :
    ∀ acc, digitsValAux acc (natDigits n) = acc * 10 ^ (natDigits n).length + n := by
  induction n using Nat.strong_induction_on with
  | _ n ih =>
    intro acc
    rw [natDigits]
    split
    · have hm : n % 10 = n := Nat.mod_eq_of_lt (by omega)
      rw [show digitsValAux acc [digitCh n]
            = 10 * acc + ((digitCh n).toNat - 48) from rfl]
      rw [digitCh_toNat, hm]
      rw [show ([digitCh n] : List Char).length = 1 from rfl, pow_one]
      omega
    · rw [digitsValAux_append]
      have hlt : n / 10 < n := Nat.div_lt_self (by omega) (by omega)
      rw [ih (n / 10) hlt acc]
      rw [show ∀ A, digitsValAux A [digitCh (n % 10)]
            = 10 * A + ((digitCh (n % 10)).toNat - 48) from fun A => rfl]
      rw [digitCh_toNat]
      rw [List.length_append,
        show ([digitCh (n % 10)] : List Char).length = 1 from rfl, pow_succ]
      have key : ∀ A : Nat,
          10 * (A + n / 10) + (48 + n % 10 % 10 - 48) = 10 * A + n := by
        intro A; omega
      rw [key]
      ring

theorem digitsVal_natDigits (n : Nat) : digitsVal (natDigits n) = n := by
  have := digitsValAux_natDigits n 0
  simpa [digitsVal] using this

theorem consumeDigits_spec (ds rest : List Char)
    (hds : ∀ c ∈ ds, isDigitCh c = true)
    (hrest : ∀ c, rest.head? = some c → isDigitCh c = false) :
    consumeDigits (ds ++ rest) = (ds, rest) := by
  induction ds with
  | nil =>
    cases rest with
    | nil => rfl
    | cons r rs =>
      have := hrest r rfl
      simp [consumeDigits, this]
  | cons d ds ih =>
    have hd := hds d (by simp)
    simp only [List.cons_append, consumeDigits, hd, if_true, List.append_eq]
    rw [ih fun c hc => hds c (by simp [hc])]

theorem parseUNum_natDigits (n : Nat) (rest : List Char)
    (hrest : ∀ c, rest.head? = some c →
      isDigitCh c = false ∧ c ≠ '.' ∧ c ≠ 'e' ∧ c ≠ 'E') :
    parseUNum (natDigits n ++ rest) = .ok (n, rest) := by
  have hc : consumeDigits (natDigits n ++ rest) = (natDigits n, rest) :=
    consumeDigits_spec _ _ (natDigits_all_digits n) (fun c hc => (hrest c hc).1)
  rcases heq : natDigits n with _ | ⟨d, ds⟩
  · exact absurd heq (natDigits_ne_nil n)
  · rw [heq] at hc
    simp only [parseUNum, heq, hc]
    have hlead : ¬(d = '0' ∧ ds ≠ []) := by
      rcases Nat.eq_zero_or_pos n with hz | hp
      · subst hz
        have h0 : natDigits 0 = [digitCh 0] := by rw [natDigits]; norm_num
        rw [h0] at heq
        simp only [List.cons.injEq] at heq
        rintro ⟨-, hne⟩
        exact hne heq.2.symm
      · rintro ⟨hd0, -⟩
        exact natDigits_head_ne_zero n hp d ds heq hd0
    rw [if_neg hlead]
    cases rest with
    | nil => simp [← heq, digitsVal_natDigits]
    | cons r rs =>
      obtain ⟨hrd, hrdot, hre, hrE⟩ := hrest r rfl
      split
      · simp_all
      · simp_all
      · simp_all
      · rw [← heq, digitsVal_natDigits]

theorem natDigits_head_not_minus (n : Nat) (d : Char) (ds : List Char)
    (heq : natDigits n = d :: ds) : d ≠ '-' := by
  have hd := natDigits_all_digits n d (by rw [heq]; simp)
  simp only [isDigitCh, Bool.and_eq_true, decide_eq_true_eq] at hd
  apply ne_of_toNat_ne
  have h45 : ('-').toNat = 45 := rfl
  omega

theorem parseNum_minus (l : List Char) :
    parseNum ('-' :: l) = (parseUNum l).map fun nr => (-(nr.1 : Int), nr.2) := rfl

theorem parseNum_intChars (i : Int) (rest : List Char)
    (hrest : ∀ c, rest.head? = some c →
      isDigitCh c = false ∧ c ≠ '.' ∧ c ≠ 'e' ∧ c ≠ 'E') :
    parseNum (intChars i ++ rest) = .ok (i, rest) := by
  rw [intChars]
  split
  · rename_i hneg
    rw [List.cons_append, parseNum_minus, parseUNum_natDigits _ _ hrest]
    have hv : -((i.natAbs : Nat) : Int) = i := by omega
    simp only [Except.map, hv]
  · rename_i hpos
    rcases heq : natDigits i.toNat with _ | ⟨d, ds⟩
    · exact absurd heq (natDigits_ne_nil _)
    · have hdm : d ≠ '-' := natDigits_head_not_minus _ _ _ heq
      have hv : ((i.toNat : Nat) : Int) = i := by omega
      try rw [List.cons_append]
      unfold parseNum
      split
      · rename_i heq2
        simp only [List.cons.injEq] at heq2
        exact absurd heq2.1 hdm
      · rw [show (d :: (ds ++ rest)) = natDigits i.toNat ++ rest by rw [heq]; rfl]
        rw [parseUNum_natDigits _ _ hrest]
        simp only [Except.map, hv]

theorem parseHexDigit_hexCh (d : Nat) (hd : d < 16) : parseHexDigit (hexCh d) = some d := by
  interval_cases d <;> rfl

theorem parseStrChars_quote (rest : List Char) :
    parseStrChars ('"' :: rest) = .ok ([], rest) := by
  rw [parseStrChars.eq_def]
  simp

theorem parseStrChars_u00 (h3 h4 : Char) (rest : List Char) (a b : Nat)
    (ha : parseHexDigit h3 = some a) (hb : parseHexDigit h4 = some b)
    (hn : ((0 * 16 + 0) * 16 + a) * 16 + b < 55296) :
    parseStrChars ('\\' :: 'u' :: '0' :: '0' :: h3 :: h4 :: rest)
      = (parseStrChars rest).map fun sr =>
          (mkChar (((0 * 16 + 0) * 16 + a) * 16 + b) hn :: sr.1, sr.2) := by
  rw [parseStrChars.eq_def]
  have e0 : parseHexDigit '0' = some 0 := rfl
  simp only [ha, hb, e0]
  rw [dif_pos hn]
  rw [if_neg (show ¬('\\' = '"') by decide), if_pos trivial]

theorem parseStrChars_escq (rest : List Char) :
    parseStrChars ('\\' :: '"' :: rest)
      = (parseStrChars rest).map fun sr => ('"' :: sr.1, sr.2) := by
  rw [parseStrChars.eq_def]; simp [unescapeChar]

theorem parseStrChars_escbs (rest : List Char) :
    parseStrChars ('\\' :: '\\' :: rest)
      = (parseStrChars rest).map fun sr => ('\\' :: sr.1, sr.2) := by
  rw [parseStrChars.eq_def]; simp [unescapeChar]

theorem parseStrChars_escb (rest : List Char) :
    parseStrChars ('\\' :: 'b' :: rest)
      = (parseStrChars rest).map fun sr => ('\x08' :: sr.1, sr.2) := by
  rw [parseStrChars.eq_def]; simp [unescapeChar]

theorem parseStrChars_escf (rest : List Char) :
    parseStrChars ('\\' :: 'f' :: rest)
      = (parseStrChars rest).map fun sr => ('\x0C' :: sr.1, sr.2) := by
  rw [parseStrChars.eq_def]; simp [unescapeChar]

theorem parseStrChars_escn (rest : List Char) :
    parseStrChars ('\\' :: 'n' :: rest)
      = (parseStrChars rest).map fun sr => ('\n' :: sr.1, sr.2) := by
  rw [parseStrChars.eq_def]; simp [unescapeChar]

theorem parseStrChars_escr (rest : List Char) :
    parseStrChars ('\\' :: 'r' :: rest)
      = (parseStrChars rest).map fun sr => ('\r' :: sr.1, sr.2) := by
  rw [parseStrChars.eq_def]; simp [unescapeChar]

theorem parseStrChars_esct (rest : List Char) :
    parseStrChars ('\\' :: 't' :: rest)
      = (parseStrChars rest).map fun sr => ('\t' :: sr.1, sr.2) := by
  rw [parseStrChars.eq_def]; simp [unescapeChar]

theorem parseStrChars_ord (c : Char) (rest : List Char)
    (h1 : c ≠ '"') (h2 : c ≠ '\\') (h3 : ¬(c.toNat < 32)) :
    parseStrChars (c :: rest)
      = (parseStrChars rest).map fun sr => (c :: sr.1, sr.2) := by
  rw [parseStrChars.eq_def]
  simp only [if_neg h1, if_neg h2, if_neg h3]

theorem parseStrChars_escapeChars (cs rest : List Char) :
    parseStrChars (escapeChars cs ++ '"' :: rest) = .ok (cs, rest) := by
  induction cs with
  | nil => simpa using parseStrChars_quote rest
  | cons c cs ih =>
    show parseStrChars ((escapeChar c ++ escapeChars cs) ++ '"' :: rest) = _
    rw [List.append_assoc, escapeChar]
    by_cases hq : c = '"'
    · subst hq
      rw [if_pos rfl]
      rw [show (['\\', '"'] : List Char) ++ (escapeChars cs ++ '"' :: rest)
            = '\\' :: '"' :: (escapeChars cs ++ '"' :: rest) from rfl]
      rw [parseStrChars_escq, ih]
      rfl
    rw [if_neg hq]
    by_cases hbs : c = '\\'
    · subst hbs
      rw [if_pos rfl]
      rw [show (['\\', '\\'] : List Char) ++ (escapeChars cs ++ '"' :: rest)
            = '\\' :: '\\' :: (escapeChars cs ++ '"' :: rest) from rfl]
      rw [parseStrChars_escbs, ih]
      rfl
    rw [if_neg hbs]
    by_cases hb : c = '\x08'
    · subst hb
      rw [if_pos rfl]
      rw [show (['\\', 'b'] : List Char) ++ (escapeChars cs ++ '"' :: rest)
            = '\\' :: 'b' :: (escapeChars cs ++ '"' :: rest) from rfl]
      rw [parseStrChars_escb, ih]
      rfl
    rw [if_neg hb]
    by_cases hf : c = '\x0C'
    · subst hf
      rw [if_pos rfl]
      rw [show (['\\', 'f'] : List Char) ++ (escapeChars cs ++ '"' :: rest)
            = '\\' :: 'f' :: (escapeChars cs ++ '"' :: rest) from rfl]
      rw [parseStrChars_escf, ih]
      rfl
    rw [if_neg hf]
    by_cases hn : c = '\n'
    · subst hn
      rw [if_pos rfl]
      rw [show (['\\', 'n'] : List Char) ++ (escapeChars cs ++ '"' :: rest)
            = '\\' :: 'n' :: (escapeChars cs ++ '"' :: rest) from rfl]
      rw [parseStrChars_escn, ih]
      rfl
    rw [if_neg hn]
    by_cases hr : c = '\r'
    · subst hr
      rw [if_pos rfl]
      rw [show (['\\', 'r'] : List Char) ++ (escapeChars cs ++ '"' :: rest)
            = '\\' :: 'r' :: (escapeChars cs ++ '"' :: rest) from rfl]
      rw [parseStrChars_escr, ih]
      rfl
    rw [if_neg hr]
    by_cases ht : c = '\t'
    · subst ht
      rw [if_pos rfl]
      rw [show (['\\', 't'] : List Char) ++ (escapeChars cs ++ '"' :: rest)
            = '\\' :: 't' :: (escapeChars cs ++ '"' :: rest) from rfl]
      rw [parseStrChars_esct, ih]
      rfl
    rw [if_neg ht]
    by_cases hc : c.toNat < 32
    · rw [if_pos hc]
      rw [show (['\\', 'u', '0', '0', hexCh (c.toNat / 16), hexCh (c.toNat % 16)] : List Char)
              ++ (escapeChars cs ++ '"' :: rest)
            = '\\' :: 'u' :: '0' :: '0' :: hexCh (c.toNat / 16) :: hexCh (c.toNat % 16)
              :: (escapeChars cs ++ '"' :: rest) from rfl]
      rw [parseStrChars_u00 _ _ _ (c.toNat / 16) (c.toNat % 16)
            (parseHexDigit_hexCh _ (by omega)) (parseHexDigit_hexCh _ (by omega))
            (by omega)]
      rw [ih]
      have hm : mkChar (((0 * 16 + 0) * 16 + c.toNat / 16) * 16 + c.toNat % 16)
          (by omega) = c := by
        apply toNat_inj
        rw [mkChar_toNat]
        omega
      rw [hm]
      rfl
    · rw [if_neg hc]
      rw [show ([c] : List Char) ++ (escapeChars cs ++ '"' :: rest)
            = c :: (escapeChars cs ++ '"' :: rest) from rfl]
      rw [parseStrChars_ord c _ hq hbs hc, ih]
      rfl

theorem string_mk_toList (s : String) : String.mk s.toList = s := rfl

theorem skipWs_cons (c : Char) (cs : List Char) (h : isJsonWs c = false) :
    skipWs (c :: cs) = c :: cs := by
  simp [skipWs, h]

theorem parseVal_succ (fuel : Nat) (input : List Char) :
    parseVal (fuel + 1) input =
      match skipWs input with
      | [] => .error "unexpected end of input"
      | c :: rest =>
        if c = 'n' then expectLit ['u', 'l', 'l'] rest .null
        else if c = 't' then expectLit ['r', 'u', 'e'] rest (.bool true)
        else if c = 'f' then expectLit ['a', 'l', 's', 'e'] rest (.bool false)
        else if c = '"' then (parseStrChars rest).map fun sr => (.str (String.mk sr.1), sr.2)
        else if c = '[' then
          match skipWs rest with
          | ']' :: r => .ok (.arr [], r)
          | rest2 => (parseElems fuel rest2).map fun er => (.arr er.1, er.2)
        else if c = '{' then
          match skipWs rest with
          | '}' :: r => .ok (.obj [], r)
          | rest2 => (parseMembers fuel rest2).map fun mr => (.obj mr.1, mr.2)
        else if c = '-' || isDigitCh c then
          (parseNum (c :: rest)).map fun nr => (.num nr.1, nr.2)
        else .error "unexpected character" := by
  rw [parseVal.eq_def]

theorem parseVal_quoteString (fuel : Nat) (s : String) (rest : List Char) :
    parseVal (fuel + 1) (quoteString s ++ rest) = .ok (.str s, rest) := by
  have hx : quoteString s ++ rest = '"' :: (escapeChars s.toList ++ '"' :: rest) := by
    simp [quoteString]
  have hsw : skipWs ('"' :: (escapeChars s.toList ++ '"' :: rest))
      = '"' :: (escapeChars s.toList ++ '"' :: rest) := skipWs_cons _ _ (by decide)
  rw [hx, parseVal_succ, hsw]
  simp [parseStrChars_escapeChars, string_mk_toList]
  rfl

theorem parseVal_renderBool (fuel : Nat) (b : Bool) (rest : List Char) :
    parseVal (fuel + 1) (renderBool b ++ rest) = .ok (.bool b, rest) := by
  cases b
  · rw [show renderBool false ++ rest = 'f' :: 'a' :: 'l' :: 's' :: 'e' :: rest from rfl,
      parseVal_succ, skipWs_cons _ _ (by decide)]
    simp [expectLit]
  · rw [show renderBool true ++ rest = 't' :: 'r' :: 'u' :: 'e' :: rest from rfl,
      parseVal_succ, skipWs_cons _ _ (by decide)]
    simp [expectLit]

theorem digit_not_special (c : Char) (h : isDigitCh c = true) :
    isJsonWs c = false ∧ c ≠ 'n' ∧ c ≠ 't' ∧ c ≠ 'f' ∧ c ≠ '"' ∧ c ≠ '[' ∧ c ≠ '{' := by
  simp only [isDigitCh, Bool.and_eq_true, decide_eq_true_eq] at h
  refine ⟨?_, ?_, ?_, ?_, ?_, ?_, ?_⟩
  · simp only [isJsonWs, Bool.or_eq_false_iff, decide_eq_false_iff_not]
    exact ⟨⟨⟨fun he => absurd (congrArg Char.toNat he) (show c.toNat ≠ 32 by omega),
        fun he => absurd (congrArg Char.toNat he) (show c.toNat ≠ 9 by omega)⟩,
        fun he => absurd (congrArg Char.toNat he) (show c.toNat ≠ 10 by omega)⟩,
        fun he => absurd (congrArg Char.toNat he) (show c.toNat ≠ 13 by omega)⟩
  · exact fun he => absurd (congrArg Char.toNat he) (show c.toNat ≠ 110 by omega)
  · exact fun he => absurd (congrArg Char.toNat he) (show c.toNat ≠ 116 by omega)
  · exact fun he => absurd (congrArg Char.toNat he) (show c.toNat ≠ 102 by omega)
  · exact fun he => absurd (congrArg Char.toNat he) (show c.toNat ≠ 34 by omega)
  · exact fun he => absurd (congrArg Char.toNat he) (show c.toNat ≠ 91 by omega)
  · exact fun he => absurd (congrArg Char.toNat he) (show c.toNat ≠ 123 by omega)

theorem parseVal_intChars (fuel : Nat) (i : Int) (rest : List Char)
    (hrest : ∀ c, rest.head? = some c →
      isDigitCh c = false ∧ c ≠ '.' ∧ c ≠ 'e' ∧ c ≠ 'E') :
    parseVal (fuel + 1) (intChars i ++ rest) = .ok (.num i, rest) := by
  have hpn := parseNum_intChars i rest hrest
  by_cases hneg : i < 0
  · rw [intChars, if_pos hneg] at hpn ⊢
    rw [List.cons_append] at hpn ⊢
    rw [parseVal_succ, skipWs_cons _ _ (by decide)]
    simp [hpn, Except.map]
  · rw [intChars, if_neg hneg] at hpn ⊢
    rcases heq : natDigits i.toNat with _ | ⟨d, ds⟩
    · exact absurd heq (natDigits_ne_nil _)
    · have hd : isDigitCh d = true := natDigits_all_digits _ d (by rw [heq]; simp)
      obtain ⟨hws, hn, ht, hf, hq, hlb, hlc⟩ := digit_not_special d hd
      rw [heq] at hpn
      rw [List.cons_append] at hpn
      try rw [List.cons_append]
      rw [parseVal_succ, skipWs_cons _ _ hws]
      simp [hn, ht, hf, hq, hlb, hlc, hd, hpn, Except.map]

theorem parseElems_succ (fuel : Nat) (input : List Char) :
    parseElems (fuel + 1) input =
      match parseVal fuel input with
      | .error e => .error e
      | .ok (v, r) =>
        match skipWs r with
        | ',' :: r2 => (parseElems fuel r2).map fun er => (v :: er.1, er.2)
        | ']' :: r2 => .ok ([v], r2)
        | _ => .error "expected comma or closing bracket" := by
  rw [parseElems.eq_def]

theorem parseMembers_succ (fuel : Nat) (input : List Char) :
    parseMembers (fuel + 1) input =
      match skipWs input with
      | '"' :: rest =>
        match parseStrChars rest with
        | .error e => .error e
        | .ok (k, r1) =>
          match skipWs r1 with
          | ':' :: r2 =>
            match parseVal fuel r2 with
            | .error e => .error e
            | .ok (v, r3) =>
              match skipWs r3 with
              | ',' :: r4 => (parseMembers fuel r4).map fun mr => ((String.mk k, v) :: mr.1, mr.2)
              | '}' :: r4 => .ok ([(String.mk k, v)], r4)
              | _ => .error "expected comma or closing brace"
          | _ => .error "expected colon"
      | _ => .error "expected object key" := by
  rw [parseMembers.eq_def]

theorem parseMembers_cons (fuel : Nat) (key : String)
    (hkey : escapeChars key.toList = key.toList)
    (valInput next : List Char) (v : Json) (ms : List (String × Json)) (r : List Char)
    (hval : parseVal fuel valInput = .ok (v, ',' :: next))
    (hrec : parseMembers fuel next = .ok (ms, r)) :
    parseMembers (fuel + 1) ('"' :: (key.toList ++ '"' :: ':' :: valInput))
      = .ok ((key, v) :: ms, r) := by
  have h1 : parseStrChars (key.data ++ '"' :: ':' :: valInput)
      = .ok (key.data, ':' :: valInput) := by
    have hkey2 : escapeChars key.data = key.data := hkey
    conv_lhs => rw [← hkey2]
    exact parseStrChars_escapeChars _ _
  rw [parseMembers_succ, skipWs_cons _ _ (by decide)]
  simp [h1, skipWs_cons _ _ (show isJsonWs ':' = false by decide),
    skipWs_cons _ _ (show isJsonWs ',' = false by decide), hval, hrec, Except.map]

theorem parseMembers_last (fuel : Nat) (key : String)
    (hkey : escapeChars key.toList = key.toList)
    (valInput r : List Char) (v : Json)
    (hval : parseVal fuel valInput = .ok (v, '}' :: r)) :
    parseMembers (fuel + 1) ('"' :: (key.toList ++ '"' :: ':' :: valInput))
      = .ok ([(key, v)], r) := by
  have h1 : parseStrChars (key.data ++ '"' :: ':' :: valInput)
      = .ok (key.data, ':' :: valInput) := by
    have hkey2 : escapeChars key.data = key.data := hkey
    conv_lhs => rw [← hkey2]
    exact parseStrChars_escapeChars _ _
  rw [parseMembers_succ, skipWs_cons _ _ (by decide)]
  simp [h1, skipWs_cons _ _ (show isJsonWs ':' = false by decide),
    skipWs_cons _ _ (show isJsonWs '}' = false by decide), hval, Except.map]

theorem parseVal_renderTodo (fuel : Nat) (t : Todo) (rest : List Char) :
    parseVal (fuel + 5) (renderTodo t ++ rest) = .ok (encodeTodo t, rest) := by
  have hid : escapeChars "id".toList = "id".toList := rfl
  have htx : escapeChars "text".toList = "text".toList := rfl
  have hcp : escapeChars "completed".toList = "completed".toList := rfl
  have hshape : renderTodo t ++ rest
      = '{' :: ('"' :: ("id".toList ++ '"' :: ':' ::
          (intChars t.id ++ ',' :: ('"' :: ("text".toList ++ '"' :: ':' ::
            (quoteString t.text ++ ',' :: ('"' :: ("completed".toList ++ '"' :: ':' ::
              (renderBool t.completed ++ '}' :: rest))))))))) := by
    have hid2 : escapeChars ['i', 'd'] = ['i', 'd'] := rfl
    have htx2 : escapeChars ['t', 'e', 'x', 't'] = ['t', 'e', 'x', 't'] := rfl
    have hcp2 : escapeChars ['c', 'o', 'm', 'p', 'l', 'e', 't', 'e', 'd']
        = ['c', 'o', 'm', 'p', 'l', 'e', 't', 'e', 'd'] := rfl
    simp [renderTodo, quoteString, hid2, htx2, hcp2, List.append_assoc]
  have hb : parseVal (fuel + 1) (renderBool t.completed ++ '}' :: rest)
      = .ok (.bool t.completed, '}' :: rest) := parseVal_renderBool fuel _ _
  have hm3 : parseMembers (fuel + 2)
      ('"' :: ("completed".toList ++ '"' :: ':' :: (renderBool t.completed ++ '}' :: rest)))
      = .ok ([("completed", .bool t.completed)], rest) :=
    parseMembers_last (fuel + 1) "completed" hcp _ _ _ hb
  have hs : parseVal (fuel + 2) (quoteString t.text ++ ',' ::
      ('"' :: ("completed".toList ++ '"' :: ':' :: (renderBool t.completed ++ '}' :: rest))))
      = .ok (.str t.text, ',' ::
        ('"' :: ("completed".toList ++ '"' :: ':' :: (renderBool t.completed ++ '}' :: rest)))) :=
    parseVal_quoteString (fuel + 1) _ _
  have hm2 : parseMembers (fuel + 3)
      ('"' :: ("text".toList ++ '"' :: ':' ::
        (quoteString t.text ++ ',' :: ('"' :: ("completed".toList ++ '"' :: ':' ::
          (renderBool t.completed ++ '}' :: rest))))))
      = .ok ([("text", .str t.text), ("completed", .bool t.completed)], rest) :=
    parseMembers_cons (fuel + 2) "text" htx _ _ _ _ _ hs hm3
  have hnum : parseVal (fuel + 3) (intChars t.id ++ ',' ::
      ('"' :: ("text".toList ++ '"' :: ':' ::
        (quoteString t.text ++ ',' :: ('"' :: ("completed".toList ++ '"' :: ':' ::
          (renderBool t.completed ++ '}' :: rest)))))))
      = .ok (.num t.id, ',' ::
        ('"' :: ("text".toList ++ '"' :: ':' ::
          (quoteString t.text ++ ',' :: ('"' :: ("completed".toList ++ '"' :: ':' ::
            (renderBool t.completed ++ '}' :: rest))))))) := by
    apply parseVal_intChars
    intro c hc
    simp only [List.head?_cons, Option.some.injEq] at hc
    subst hc
    refine ⟨by decide, by decide, by decide, by decide⟩
  have hm1 : parseMembers (fuel + 4)
      ('"' :: ("id".toList ++ '"' :: ':' ::
        (intChars t.id ++ ',' :: ('"' :: ("text".toList ++ '"' :: ':' ::
          (quoteString t.text ++ ',' :: ('"' :: ("completed".toList ++ '"' :: ':' ::
            (renderBool t.completed ++ '}' :: rest)))))))))
      = .ok ([("id", .num t.id), ("text", .str t.text), ("completed", .bool t.completed)], rest) :=
    parseMembers_cons (fuel + 3) "id" hid _ _ _ _ _ hnum hm2
  simp only [show ("id".toList : List Char) = ['i', 'd'] from rfl,
    show ("text".toList : List Char) = ['t', 'e', 'x', 't'] from rfl,
    show ("completed".toList : List Char) = ['c', 'o', 'm', 'p', 'l', 'e', 't', 'e', 'd'] from rfl,
    List.cons_append, List.nil_append] at hm1
  rw [hshape]
  rw [show fuel + 5 = (fuel + 4) + 1 from rfl, parseVal_succ,
    skipWs_cons _ _ (show isJsonWs '{' = false by decide)]
  simp [skipWs_cons _ _ (show isJsonWs '"' = false by decide), hm1, Except.map, encodeTodo]

theorem parseElems_renderTodos (l : List Todo) :
    ∀ (fuel : Nat) (rest : List Char), l ≠ [] →
      parseElems (fuel + l.length + 6) (renderElemsSep (l.map renderTodo) ++ ']' :: rest)
        = .ok (l.map encodeTodo, rest) := by
  induction l with
  | nil => intro fuel rest h; exact absurd rfl h
  | cons t ts ih =>
    intro fuel rest _
    cases ts with
    | nil =>
      rw [show renderElemsSep ([t].map renderTodo) = renderTodo t from rfl]
      simp only [List.length_cons, List.length_nil]
      rw [show fuel + (0 + 1) + 6 = (fuel + 6) + 1 from by omega, parseElems_succ]
      rw [show fuel + 6 = (fuel + 1) + 5 from by omega, parseVal_renderTodo]
      have hsw : skipWs (']' :: rest) = ']' :: rest := skipWs_cons _ _ (by decide)
      simp [hsw, Except.map]
    | cons t2 ts2 =>
      have hsep : renderElemsSep ((t :: t2 :: ts2).map renderTodo)
          = renderTodo t ++ ',' :: renderElemsSep ((t2 :: ts2).map renderTodo) := rfl
      rw [hsep, List.append_assoc, List.cons_append]
      simp only [List.length_cons]
      rw [show fuel + (ts2.length + 1 + 1) + 6 = (fuel + (ts2.length + 1) + 6) + 1
            from by omega, parseElems_succ]
      rw [show fuel + (ts2.length + 1) + 6 = (fuel + ts2.length + 2) + 5 from by omega,
        parseVal_renderTodo]
      have hih := ih fuel rest (by simp)
      simp only [List.length_cons] at hih
      rw [show fuel + (ts2.length + 1) + 6 = (fuel + ts2.length + 2) + 5 from by omega] at hih
      have hsw : skipWs (',' :: (renderElemsSep ((t2 :: ts2).map renderTodo) ++ ']' :: rest))
          = ',' :: (renderElemsSep ((t2 :: ts2).map renderTodo) ++ ']' :: rest) :=
        skipWs_cons _ _ (by decide)
      simp only [List.map_cons] at hsw hih ⊢
      simp [hsw, hih, Except.map]

theorem parseVal_stringify_core (l : List Todo) (fuel : Nat) (rest : List Char) :
    parseVal (fuel + l.length + 7) ('[' :: (renderElemsSep (l.map renderTodo) ++ ']' :: rest))
      = .ok (.arr (l.map encodeTodo), rest) := by
  rw [show fuel + l.length + 7 = (fuel + l.length + 6) + 1 from by omega, parseVal_succ,
    skipWs_cons _ _ (show isJsonWs '[' = false by decide)]
  cases l with
  | nil =>
    simp [renderElemsSep, skipWs_cons _ _ (show isJsonWs ']' = false by decide)]
  | cons t ts =>
    have hhead : ∃ X, renderElemsSep ((t :: ts).map renderTodo) = '{' :: X := by
      cases ts with
      | nil => exact ⟨_, rfl⟩
      | cons t2 ts2 => exact ⟨_, rfl⟩
    obtain ⟨X, hX⟩ := hhead
    have hel := parseElems_renderTodos (t :: ts) fuel rest (by simp)
    rw [hX, List.cons_append] at hel ⊢
    have hsw2 : skipWs ('{' :: (X ++ ']' :: rest)) = '{' :: (X ++ ']' :: rest) :=
      skipWs_cons _ _ (by decide)
    simp only [List.length_cons, List.map_cons] at hel
    simp [hsw2, hel, Except.map]

theorem renderElemsSep_length (l : List Todo) :
    l.length ≤ (renderElemsSep (l.map renderTodo)).length := by
  induction l with
  | nil => simp [renderElemsSep]
  | cons t ts ih =>
    have hrt : 1 ≤ (renderTodo t).length := by
      rw [renderTodo]
      simp
    cases ts with
    | nil =>
      rw [show renderElemsSep ([t].map renderTodo) = renderTodo t from rfl]
      simpa using hrt
    | cons t2 ts2 =>
      rw [show renderElemsSep ((t :: t2 :: ts2).map renderTodo)
            = renderTodo t ++ ',' :: renderElemsSep ((t2 :: ts2).map renderTodo) from rfl]
      simp only [List.length_cons, List.length_append] at ih ⊢
      omega

theorem jsonParse_stringify (l : List Todo) :
    jsonParse (stringifyTodos l) = .ok (.arr (l.map encodeTodo)) := by
  have h1 : (stringifyTodos l).toList
      = '[' :: (renderElemsSep (l.map renderTodo) ++ ']' :: []) := rfl
  have h2 : (stringifyTodos l).length
      = ('[' :: (renderElemsSep (l.map renderTodo) ++ ']' :: [])).length := rfl
  have hlen := renderElemsSep_length l
  obtain ⟨f, hf⟩ : ∃ f, 2 * (stringifyTodos l).length + 4 = f + l.length + 7 := by
    refine ⟨2 * (stringifyTodos l).length - l.length - 3, ?_⟩
    rw [h2]
    simp only [List.length_cons, List.length_append]
    omega
  rw [jsonParse, h1, hf, parseVal_stringify_core]
  rfl

theorem decodeTodo_encodeTodo (t : Todo) : decodeTodo (encodeTodo t) = some t := by
  cases t
  rfl

theorem decodeTodoList_encode (l : List Todo) :
    decodeTodoList (l.map encodeTodo) = some l := by
  induction l with
  | nil => rfl
  | cons t ts ih => simp [decodeTodoList, decodeTodo_encodeTodo, ih]

/-- C3: a fresh `load` of what `save` wrote reproduces the exact TaskList:
same ids, texts, completed flags, in the same order. -/
theorem save_load_roundtrip (l : List Todo) : load (save l) = .ok l := by
  have hne : stringifyTodos l ≠ "" := by
    intro h
    have hh := congrArg String.data h
    simp [stringifyTodos] at hh
  rw [save, load]
  rw [if_neg hne, jsonParse_stringify]
  simp [decodeTodos, decodeTodoList_encode]
